import Mathlib

/-!
Verification of the name classifier `clean_species_name` from
`clean_species_names.py`.

The classifier is a pure function from a raw species string and an optional
genus string to a triple of optional strings (binomial, trinomial, suffix).
We embed it shallowly: Python strings become Lean `String`s (whose data we
manipulate as `List Char`), the fixed regexes of the source are translated to
explicit character tests, and the dynamically built doubled-genus regex
(the genus text is interpolated into the pattern unescaped) is modelled by a
small token pattern type.  The model is exact for ASCII input, which is the
script's stated scope.

Pandas `NaN`/missing values are modelled by `Option`: a `none` species is
`pd.isna`.  The one place the Python code can fail is compiling the
interpolated doubled-genus pattern: a genus containing a regex metacharacter
other than `.` is outside the model (for example `re.compile` raises
`re.error` on genus `"("`), and `.` itself is kept in the model as the
wildcard it is in the compiled pattern.  The embedded function therefore
returns `Option Result`, with `none` marking exactly those genus arguments
whose interpolated pattern is not a plain literal/wildcard pattern.
-/

namespace CleanSpecies

/-- ASCII model of Python's whitespace class (`\s`, `str.strip`, `str.split`). -/
def pyIsSpace (c : Char) : Bool :=
  c == ' ' || c == '\t' || c == '\n' || c == '\r' || c == '\x0b' || c == '\x0c'

/-- Python `str.strip()`: drop whitespace from both ends. -/
def pyStrip (cs : List Char) : List Char :=
  ((cs.dropWhile pyIsSpace).reverse.dropWhile pyIsSpace).reverse

/-- Worker for `pySplit`: accumulates the current word reversed. -/
def splitAux : List Char → List Char → List (List Char)
  | [], acc => if acc = [] then [] else [acc.reverse]
  | c :: rest, acc =>
    if pyIsSpace c then
      if acc = [] then splitAux rest [] else acc.reverse :: splitAux rest []
    else splitAux rest (c :: acc)

/-- Python `str.split()` with no argument: words between whitespace runs. -/
def pySplit (cs : List Char) : List (List Char) :=
  splitAux cs []

/-- `re.match(r'^sp\.?$', t, re.IGNORECASE)`: exactly "sp" or "sp.",
case-insensitively (ASCII). -/
def isSpExact : List Char → Bool
  | [a, b] => (a == 's' || a == 'S') && (b == 'p' || b == 'P')
  | [a, b, c] => (a == 's' || a == 'S') && (b == 'p' || b == 'P') && c == '.'
  | _ => false

/-- `re.match(r'^sp[._]', t, re.IGNORECASE)`: "sp" followed by "." or "_",
then anything. -/
def isSpSep : List Char → Bool
  | a :: b :: c :: _ => (a == 's' || a == 'S') && (b == 'p' || b == 'P') && (c == '.' || c == '_')
  | _ => false

/-- `t.lower() in ['aff.', 'cf.']` (ASCII case folding). -/
def isAffCf : List Char → Bool
  | [a, b, c, d] => (a == 'a' || a == 'A') && (b == 'f' || b == 'F') && (c == 'f' || c == 'F') && d == '.'
  | [a, b, c] => (a == 'c' || a == 'C') && (b == 'f' || b == 'F') && c == '.'
  | _ => false

/-- The three placeholder checks of the source, in order (they are disjoint in
effect: each returns the same degraded result). -/
def isPlaceholder (t : List Char) : Bool :=
  isSpExact t || isSpSep t || isAffCf t

/-- One position of the interpolated doubled-genus pattern: a literal
character or the `.` wildcard.  Each token consumes exactly one character. -/
inductive GTok where
  | lit : Char → GTok
  | any : GTok
deriving DecidableEq

/-- Regex metacharacters (other than `.`) that make the interpolated pattern
something beyond the literal/wildcard fragment modelled here; `re.compile`
may raise on them (for example genus `"("`). -/
def regexSpecials : List Char :=
  ['\\', '^', '$', '*', '+', '?', '(', ')', '[', ']', '{', '}', '|']

/-- Compile the genus text as it appears inside
`f"^{genus_str}\\s+{genus_str}\\s+"`: ordinary characters are literals, `.`
is the wildcard, any other metacharacter leaves the modelled fragment. -/
def genusToks : List Char → Option (List GTok)
  | [] => some []
  | c :: rest =>
    if c ∈ regexSpecials then none
    else (genusToks rest).map (fun ts => (if c == '.' then GTok.any else GTok.lit c) :: ts)

/-- Match a token sequence against a prefix of the input, returning the rest.
Deterministic because every token consumes exactly one character; the `.`
wildcard matches any character except a newline (`re.DOTALL` is not set). -/
def matchToks : List GTok → List Char → Option (List Char)
  | [], cs => some cs
  | _ :: _, [] => none
  | t :: ts, c :: cs =>
    match t with
    | GTok.any => if c == '\n' then none else matchToks ts cs
    | GTok.lit l => if c == l then matchToks ts cs else none

/-- `\s+` followed by a continuation: consume one or more whitespace
characters, succeeding if the continuation accepts some split. -/
def existsWsThen (k : List Char → Bool) : List Char → Bool
  | [] => false
  | c :: cs => pyIsSpace c && (k cs || existsWsThen k cs)

/-- Does the string start with a whitespace character (final `\s+` of the
doubled pattern)? -/
def startsWs : List Char → Bool
  | [] => false
  | c :: _ => pyIsSpace c

/-- `re.match(f"^{g}\\s+{g}\\s+", cs)` for the compiled genus tokens. -/
def matchDoubled (ts : List GTok) (cs : List Char) : Bool :=
  match matchToks ts cs with
  | none => false
  | some rest =>
    existsWsThen (fun rest2 =>
      match matchToks ts rest2 with
      | none => false
      | some rest3 => startsWs rest3) rest

/-- `re.sub(f"^{g}\\s+", "", cs, count=1)`: strip one leading genus
occurrence and the greedy whitespace run after it; no-op if the pattern does
not match at the start. -/
def stripGenusOnce (ts : List GTok) (cs : List Char) : List Char :=
  match matchToks ts cs with
  | none => cs
  | some rest => if startsWs rest then rest.dropWhile pyIsSpace else cs

/-- Lines 53-58 of the source: if a genus is given (truthy and not NaN),
strip a doubled genus prefix.  `none` marks a genus whose interpolated
pattern leaves the modelled regex fragment (Python may raise `re.error`). -/
def applyDoubled (genus : Option String) (cs : List Char) : Option (List Char) :=
  match genus with
  | none => some cs
  | some gv =>
    if gv = "" then some cs
    else
      match genusToks (pyStrip gv.toList) with
      | none => none
      | some ts => some (if matchDoubled ts cs then stripGenusOnce ts cs else cs)

/-- `parts[0][0].isupper()` (ASCII): the empty-token case cannot arise from
`pySplit` and maps to `false`. -/
def tokenStartsUpper : List Char → Bool
  | [] => false
  | c :: _ => c.isUpper

/-- Lines 70-79 of the source: pick the genus part.  The first token is used
when it starts with an uppercase letter; otherwise the trimmed genus argument
when one is given (truthy, not NaN); otherwise no binomial can be formed. -/
def resolveGenus (genus : Option String) : List (List Char) → Option (List Char × List (List Char))
  | [] => none
  | p0 :: rest =>
    if tokenStartsUpper p0 then some (p0, rest)
    else
      match genus with
      | some gv => if gv = "" then none else some (pyStrip gv.toList, p0 :: rest)
      | none => none

/-- `' '.join(tokens)`. -/
def joinSp : List (List Char) → List Char
  | [] => []
  | [t] => t
  | t :: ts => t ++ ' ' :: joinSp ts

/-- The classifier's result triple: (binomial, trinomial, suffix). -/
abbrev Result := Option String × Option String × Option String

/-- The canonical epithet: `re.match(r'^([a-z]+)', epithet).group(1)`. -/
def canonOf (epithet : List Char) : List Char :=
  epithet.takeWhile Char.isLower

/-- `suffix_from_species`: what is left of the epithet after the canonical
lowercase run. -/
def tailOf (epithet : List Char) : List Char :=
  epithet.dropWhile Char.isLower

/-- `f"{genus_part} {canonical_species}"`. -/
def binomialOf (gpart epithet : List Char) : List Char :=
  gpart ++ ' ' :: canonOf epithet

/-- Line 134-135 of the source: the suffix in the not-a-subspecies branch,
with a nonempty `suffix_from_species` prepended. -/
def tailSuffix (epithet : List Char) (rem1 : List (List Char)) : List Char :=
  if tailOf epithet = [] then joinSp rem1 else tailOf epithet ++ ' ' :: joinSp rem1

/-- Lines 86-144 of the source: classify the tokens after the genus has been
resolved.  `cs` is the working string (trimmed, doubled genus removed),
returned verbatim as suffix on every unparseable shape. -/
def classifyRemaining (gpart : List Char) (remaining : List (List Char)) (cs : List Char) : Result :=
  match remaining with
  | [] => (none, none, some (String.mk cs))
  | epithet :: rem1 =>
    if isPlaceholder epithet then (none, none, some (String.mk cs))
    else if canonOf epithet = [] then (none, none, some (String.mk cs))
    else
      match rem1 with
      | [] =>
        if tailOf epithet = [] then (some (String.mk (binomialOf gpart epithet)), none, none)
        else
          (some (String.mk (binomialOf gpart epithet)), none, some (String.mk (tailOf epithet)))
      | next :: rest2 =>
        if !next.isEmpty && next.all Char.isLower then
          match rest2 with
          | [] =>
            (some (String.mk (binomialOf gpart epithet)),
             some (String.mk (binomialOf gpart epithet ++ ' ' :: next)), none)
          | _ :: _ =>
            (some (String.mk (binomialOf gpart epithet)),
             some (String.mk (binomialOf gpart epithet ++ ' ' :: next)),
             some (String.mk (joinSp rest2)))
        else
          (some (String.mk (binomialOf gpart epithet)), none,
           if tailSuffix epithet (next :: rest2) = [] then none
           else some (String.mk (tailSuffix epithet (next :: rest2))))

/-- Dispatch on the outcome of genus resolution (lines 70-79): either the
whole working string becomes the suffix, or classification continues. -/
def cleanResolved (cs : List Char) : Option (List Char × List (List Char)) → Result
  | none => (none, none, some (String.mk cs))
  | some (gpart, remaining) => classifyRemaining gpart remaining cs

/-- Dispatch on the token list (lines 61-64): an empty split returns
all-absent, otherwise genus resolution runs. -/
def cleanSplit (genus : Option String) (cs : List Char) : List (List Char) → Result
  | [] => (none, none, none)
  | p0 :: rest => cleanResolved cs (resolveGenus genus (p0 :: rest))

/-- The classifier body for a present (non-NaN) species value. -/
def cleanCore (sv : String) (genus : Option String) : Option Result :=
  if sv = "" then some (none, none, none)
  else (applyDoubled genus (pyStrip sv.toList)).map
    (fun cs => cleanSplit genus cs (pySplit cs))

/-- `clean_species_name(species_value, genus_value)`: a `none` species models
`pd.isna`, and a `none` overall result marks the unmodelled/raising
interpolated-regex case. -/
def clean_species_name (species genus : Option String) : Option Result :=
  match species with
  | none => some (none, none, none)
  | some sv => cleanCore sv genus

/-- Does the genus argument stay inside the modelled regex fragment (absent,
falsy, or metacharacter-free up to the `.` wildcard)? -/
def genusCompiles (genus : Option String) : Bool :=
  match genus with
  | none => true
  | some gv => gv = "" || (genusToks (pyStrip gv.toList)).isSome

example : clean_species_name (some "Onthophagus incensus") none
    = some (some "Onthophagus incensus", none, none) := by decide

example : clean_species_name (some "Onthophagus incensusASolis02") none
    = some (some "Onthophagus incensus", none, some "ASolis02") := by decide

example : clean_species_name (some "Onthophagus sp.") none
    = some (none, none, some "Onthophagus sp.") := by decide

example : clean_species_name (some "Onthophagus sp._13YB") none
    = some (none, none, some "Onthophagus sp._13YB") := by decide

example : clean_species_name (some "Onthophagus incensus auratus") none
    = some (some "Onthophagus incensus", some "Onthophagus incensus auratus", none) := by decide

example : clean_species_name (some "Onthophagus Onthophagus incensus") (some "Onthophagus")
    = some (some "Onthophagus incensus", none, none) := by decide

/-! ### Character and whitespace facts -/

lemma ws_cases {c : Char} (h : pyIsSpace c = true) :
    c = ' ' ∨ c = '\t' ∨ c = '\n' ∨ c = '\r' ∨ c = '\x0b' ∨ c = '\x0c' := by
  simpa [pyIsSpace, or_assoc] using h

lemma isLower_not_ws {c : Char} (h : c.isLower = true) : pyIsSpace c = false := by
  cases hw : pyIsSpace c with
  | false => rfl
  | true =>
    rcases ws_cases hw with h1 | h1 | h1 | h1 | h1 | h1 <;> subst h1 <;>
      exact absurd h (by decide)

lemma isUpper_not_ws {c : Char} (h : c.isUpper = true) : pyIsSpace c = false := by
  cases hw : pyIsSpace c with
  | false => rfl
  | true =>
    rcases ws_cases hw with h1 | h1 | h1 | h1 | h1 | h1 <;> subst h1 <;>
      exact absurd h (by decide)

lemma takeWhile_all {α : Type} {p : α → Bool} {l : List α} (h : ∀ x ∈ l, p x = true) :
    l.takeWhile p = l := by
  induction l with
  | nil => rfl
  | cons a l ih =>
    rw [List.takeWhile_cons_of_pos (h a (List.mem_cons_self a l))]
    rw [ih (fun x hx => h x (List.mem_cons_of_mem a hx))]

lemma dropWhile_all {α : Type} {p : α → Bool} {l : List α} (h : ∀ x ∈ l, p x = true) :
    l.dropWhile p = [] := by
  induction l with
  | nil => rfl
  | cons a l ih =>
    rw [List.dropWhile_cons_of_pos (h a (List.mem_cons_self a l))]
    exact ih (fun x hx => h x (List.mem_cons_of_mem a hx))

lemma dropWhile_head_not {α : Type} {p : α → Bool} {a : α} {l : List α} (h : p a = false) :
    (a :: l).dropWhile p = a :: l :=
  List.dropWhile_cons_of_neg (by simp [h])

/-- A string whose first and last characters are not whitespace is unchanged
by `pyStrip`. -/
lemma pyStrip_of_ends {a b : Char} {mid : List Char}
    (ha : pyIsSpace a = false) (hb : pyIsSpace b = false) :
    pyStrip (a :: (mid ++ [b])) = a :: (mid ++ [b]) := by
  unfold pyStrip
  rw [dropWhile_head_not ha]
  have hrev : (a :: (mid ++ [b])).reverse = b :: (mid.reverse ++ [a]) := by
    simp
  rw [hrev, dropWhile_head_not hb, ← hrev, List.reverse_reverse]

lemma pyStrip_nil : pyStrip [] = [] := rfl

/-! ### Facts about `pySplit` -/

lemma splitAux_nonws {w : List Char} (hw : ∀ x ∈ w, pyIsSpace x = false) :
    ∀ (cs acc : List Char), splitAux (w ++ cs) acc = splitAux cs (w.reverse ++ acc) := by
  induction w with
  | nil => intro cs acc; simp
  | cons a w ih =>
    intro cs acc
    have ha : pyIsSpace a = false := hw a (List.mem_cons_self a w)
    have hw' : ∀ x ∈ w, pyIsSpace x = false := fun x hx => hw x (List.mem_cons_of_mem a hx)
    simp only [List.cons_append, splitAux, ha, Bool.false_eq_true, if_false]
    simpa [List.append_assoc] using ih hw' cs (a :: acc)

lemma splitAux_all_nonws {w : List Char} (hw : ∀ x ∈ w, pyIsSpace x = false)
    (hne : w ≠ []) : ∀ acc, splitAux w acc = [acc.reverse ++ w] := by
  intro acc
  have h1 : splitAux (w ++ []) acc = splitAux [] (w.reverse ++ acc) := splitAux_nonws hw [] acc
  rw [List.append_nil] at h1
  rw [h1]
  have h2 : w.reverse ++ acc ≠ [] := by
    intro h
    rcases List.append_eq_nil.mp h with ⟨h3, _⟩
    exact hne (List.reverse_eq_nil_iff.mp h3)
  simp only [splitAux]
  rw [if_neg h2]
  simp

/-- `pySplit` of `word ++ " " ++ word` for whitespace-free nonempty words. -/
lemma pySplit_two {g c : List Char} (hgw : ∀ x ∈ g, pyIsSpace x = false)
    (hcw : ∀ x ∈ c, pyIsSpace x = false) (hg : g ≠ []) (hc : c ≠ []) :
    pySplit (g ++ ' ' :: c) = [g, c] := by
  have h0 : pySplit (g ++ ' ' :: c) = splitAux (' ' :: c) g.reverse := by
    unfold pySplit
    rw [splitAux_nonws hgw (' ' :: c) [], List.append_nil]
  have hgr : g.reverse ≠ [] := fun h => hg (List.reverse_eq_nil_iff.mp h)
  have hsp : pyIsSpace ' ' = true := rfl
  rw [h0]
  simp only [splitAux, hsp, if_true]
  rw [if_neg hgr]
  rw [splitAux_all_nonws hcw hc []]
  simp

/-- Every token produced by `splitAux` is nonempty: words are emitted only
from a nonempty accumulator. -/
lemma splitAux_token_ne_nil : ∀ (cs acc t : List Char), t ∈ splitAux cs acc → t ≠ [] := by
  intro cs
  induction cs with
  | nil =>
    intro acc t ht
    by_cases hacc : acc = []
    · subst hacc
      simp [splitAux] at ht
    · simp only [splitAux] at ht
      rw [if_neg hacc] at ht
      rcases List.mem_singleton.mp ht with rfl
      exact fun h => hacc (List.reverse_eq_nil_iff.mp h)
  | cons c rest ih =>
    intro acc t ht
    by_cases hws : pyIsSpace c = true
    · simp only [splitAux, hws, if_true] at ht
      by_cases hacc : acc = []
      · rw [if_pos hacc] at ht
        exact ih [] t ht
      · rw [if_neg hacc] at ht
        rcases List.mem_cons.mp ht with rfl | hmem
        · exact fun h => hacc (List.reverse_eq_nil_iff.mp h)
        · exact ih [] t hmem
    · simp only [splitAux, hws, Bool.false_eq_true, if_false] at ht
      exact ih (c :: acc) t ht

lemma pySplit_token_ne_nil {cs t : List Char} (ht : t ∈ pySplit cs) : t ≠ [] :=
  splitAux_token_ne_nil cs [] t ht

lemma pySplit_nil : pySplit [] = [] := rfl

/-! ### Facts about the doubled-genus step -/

lemma matchToks_nil_input {ts : List GTok} {rest : List Char}
    (h : matchToks ts [] = some rest) : ts = [] ∧ rest = [] := by
  cases ts with
  | nil =>
    simp only [matchToks, Option.some.injEq] at h
    exact ⟨rfl, h.symm⟩
  | cons t ts => simp [matchToks] at h

lemma matchDoubled_nil {ts : List GTok} : matchDoubled ts [] = false := by
  cases ts <;> rfl

lemma applyDoubled_nil_some {g : Option String} {cs : List Char}
    (h : applyDoubled g [] = some cs) : cs = [] := by
  cases g with
  | none =>
    simp only [applyDoubled, Option.some.injEq] at h
    exact h.symm
  | some gv =>
    by_cases hgv : gv = ""
    · simp only [applyDoubled, hgv, if_pos, Option.some.injEq] at h
      exact h.symm
    · rw [applyDoubled, if_neg hgv] at h
      cases hts : genusToks (pyStrip gv.toList) with
      | none => rw [hts] at h; simp at h
      | some ts =>
        rw [hts] at h
        simp only [matchDoubled_nil, if_neg, Option.some.injEq] at h
        simpa using h.symm

lemma resolveGenus_mem {g : Option String} {parts : List (List Char)}
    {gp : List Char} {rem : List (List Char)}
    (h : resolveGenus g parts = some (gp, rem)) : ∀ t ∈ rem, t ∈ parts := by
  cases parts with
  | nil => simp [resolveGenus] at h
  | cons p0 rest =>
    simp only [resolveGenus] at h
    by_cases hu : tokenStartsUpper p0 = true
    · rw [if_pos hu] at h
      simp only [Option.some.injEq, Prod.mk.injEq] at h
      intro t ht
      rw [← h.2] at ht
      exact List.mem_cons_of_mem p0 ht
    · rw [if_neg hu] at h
      cases g with
      | none => simp at h
      | some gv =>
        have h' : (if gv = "" then none
            else some (pyStrip gv.toList, p0 :: rest) : Option (List Char × List (List Char)))
            = some (gp, rem) := h
        by_cases hgv : gv = ""
        · rw [if_pos hgv] at h'; simp at h'
        · rw [if_neg hgv] at h'
          simp only [Option.some.injEq, Prod.mk.injEq] at h'
          intro t ht
          rwa [h'.2]

/-- Unfolding the classifier down to `classifyRemaining` once the trimming,
doubled-genus and genus-resolution stages are fixed. -/
lemma clean_eq_classify {s : String} {g : Option String} {cs gpart : List Char}
    {remaining : List (List Char)}
    (h1 : applyDoubled g (pyStrip s.toList) = some cs)
    (h2 : resolveGenus g (pySplit cs) = some (gpart, remaining)) :
    clean_species_name (some s) g = some (classifyRemaining gpart remaining cs) := by
  have hs : s ≠ "" := by
    intro hse
    subst hse
    rw [show ("" : String).toList = [] from rfl, pyStrip_nil] at h1
    have hcs := applyDoubled_nil_some h1
    subst hcs
    rw [pySplit_nil] at h2
    simp [resolveGenus] at h2
  obtain ⟨p0, rest, hsp⟩ : ∃ p0 rest, pySplit cs = p0 :: rest := by
    cases hsp : pySplit cs with
    | nil => rw [hsp] at h2; simp [resolveGenus] at h2
    | cons p0 rest => exact ⟨p0, rest, rfl⟩
  rw [hsp] at h2
  simp only [clean_species_name, cleanCore, if_neg hs, h1, Option.map_some', hsp,
    cleanSplit, h2, cleanResolved]

/-- Unfolding the classifier in the no-genus-available branch (line 79). -/
lemma clean_eq_noResolve {s : String} {g : Option String} {cs p0 : List Char}
    {rest : List (List Char)}
    (h1 : applyDoubled g (pyStrip s.toList) = some cs)
    (hsp : pySplit cs = p0 :: rest)
    (h2 : resolveGenus g (p0 :: rest) = none) :
    clean_species_name (some s) g = some (none, none, some (String.mk cs)) := by
  have hs : s ≠ "" := by
    intro hse
    subst hse
    rw [show ("" : String).toList = [] from rfl, pyStrip_nil] at h1
    have hcs := applyDoubled_nil_some h1
    subst hcs
    rw [pySplit_nil] at hsp
    exact List.noConfusion hsp
  simp only [clean_species_name, cleanCore, if_neg hs, h1, Option.map_some', hsp,
    cleanSplit, h2, cleanResolved]

/-! ### The interpolated pattern on metacharacter-free genus text -/

lemma genusToks_plain {g : List Char} (h : ∀ c ∈ g, c ∉ regexSpecials ∧ c ≠ '.') :
    genusToks g = some (g.map GTok.lit) := by
  induction g with
  | nil => rfl
  | cons c g ih =>
    have hc := h c (List.mem_cons_self c g)
    rw [genusToks, if_neg hc.1, ih (fun x hx => h x (List.mem_cons_of_mem c hx))]
    have hdot : (c == '.') = false := by simpa using hc.2
    simp [hdot]

lemma matchToks_lits_iff (g : List Char) : ∀ (cs rest : List Char),
    (matchToks (g.map GTok.lit) cs = some rest ↔ cs = g ++ rest) := by
  induction g with
  | nil =>
    intro cs rest
    simp [matchToks, eq_comm]
  | cons a g ih =>
    intro cs rest
    cases cs with
    | nil => simp [matchToks]
    | cons x cs =>
      simp only [List.map_cons, matchToks, List.cons_append, List.cons.injEq]
      by_cases hx : x = a
      · subst hx
        simp [ih cs rest]
      · have hxb : (x == a) = false := by simpa using hx
        simp [hxb, hx]

lemma existsWsThen_iff (k : List Char → Bool) : ∀ (cs : List Char),
    (existsWsThen k cs = true ↔
      ∃ w rest, cs = w ++ rest ∧ w ≠ [] ∧ (∀ x ∈ w, pyIsSpace x = true) ∧ k rest = true) := by
  intro cs
  induction cs with
  | nil =>
    simp only [existsWsThen]
    constructor
    · intro h; exact absurd h (by simp)
    · rintro ⟨w, rest, h1, h2, -, -⟩
      exact absurd (List.append_eq_nil.mp h1.symm).1 h2
  | cons c cs ih =>
    simp only [existsWsThen, Bool.and_eq_true, Bool.or_eq_true]
    constructor
    · rintro ⟨hc, hk | hrec⟩
      · exact ⟨[c], cs, rfl, by simp, by simpa using hc, hk⟩
      · obtain ⟨w, rest, heq, hw, hws, hk⟩ := ih.mp hrec
        refine ⟨c :: w, rest, by rw [heq]; rfl, by simp, ?_, hk⟩
        intro x hx
        rcases List.mem_cons.mp hx with rfl | hx
        · exact hc
        · exact hws x hx
    · rintro ⟨w, rest, heq, hw, hws, hk⟩
      cases w with
      | nil => exact absurd rfl hw
      | cons a w' =>
        rw [List.cons_append] at heq
        injection heq with hca hcs
        subst hca
        refine ⟨hws c (List.mem_cons_self c w'), ?_⟩
        cases w' with
        | nil =>
          left
          rw [hcs, List.nil_append]
          exact hk
        | cons b w'' =>
          right
          refine ih.mpr ⟨b :: w'', rest, hcs, by simp, ?_, hk⟩
          intro x hx
          exact hws x (List.mem_cons_of_mem c hx)

/-- For metacharacter-free genus text the doubled-genus pattern matches
exactly when the string starts with the genus, one or more whitespace
characters, the genus again, and further whitespace. -/
lemma matchDoubled_lits_iff (g cs : List Char) :
    matchDoubled (g.map GTok.lit) cs = true ↔
      ∃ w1 w2 rest, w1 ≠ [] ∧ w2 ≠ [] ∧ (∀ x ∈ w1, pyIsSpace x = true) ∧
        (∀ x ∈ w2, pyIsSpace x = true) ∧ cs = g ++ (w1 ++ (g ++ (w2 ++ rest))) := by
  unfold matchDoubled
  cases hm : matchToks (g.map GTok.lit) cs with
  | none =>
    constructor
    · intro h; exact absurd h (by simp)
    · rintro ⟨w1, w2, rest, -, -, -, -, heq⟩
      rw [(matchToks_lits_iff g cs (w1 ++ (g ++ (w2 ++ rest)))).mpr heq] at hm
      exact Option.noConfusion hm
  | some rest1 =>
    have hcs : cs = g ++ rest1 := (matchToks_lits_iff g cs rest1).mp hm
    rw [existsWsThen_iff]
    constructor
    · rintro ⟨w1, rest2, hre, hw1, hws1, hk⟩
      cases hm2 : matchToks (g.map GTok.lit) rest2 with
      | none => rw [hm2] at hk; exact absurd hk (by simp)
      | some rest3 =>
        rw [hm2] at hk
        have h3 : rest2 = g ++ rest3 := (matchToks_lits_iff g rest2 rest3).mp hm2
        cases rest3 with
        | nil => simp [startsWs] at hk
        | cons b rest4 =>
          refine ⟨w1, [b], rest4, hw1, by simp, hws1, ?_, ?_⟩
          · intro x hx
            rcases List.mem_singleton.mp hx with rfl
            simpa [startsWs] using hk
          · rw [hcs, hre, h3]
            simp
    · rintro ⟨w1, w2, rest, hw1, hw2, hws1, hws2, heq⟩
      have hr1 : rest1 = w1 ++ (g ++ (w2 ++ rest)) :=
        List.append_cancel_left (hcs ▸ heq)
      refine ⟨w1, g ++ (w2 ++ rest), hr1, hw1, hws1, ?_⟩
      rw [(matchToks_lits_iff g (g ++ (w2 ++ rest)) (w2 ++ rest)).mpr rfl]
      cases w2 with
      | nil => exact absurd rfl hw2
      | cons b w2' =>
        simpa [startsWs] using hws2 b (List.mem_cons_self b w2')

/-- For metacharacter-free genus text, `re.sub(f"^{g}\\s+", "", ·, count=1)`
removes exactly the genus and the whitespace run after it. -/
lemma stripGenusOnce_lits {g w rest : List Char} (hw : w ≠ [])
    (hws : ∀ x ∈ w, pyIsSpace x = true) (hrest : startsWs rest = false) :
    stripGenusOnce (g.map GTok.lit) (g ++ (w ++ rest)) = rest := by
  unfold stripGenusOnce
  rw [(matchToks_lits_iff g (g ++ (w ++ rest)) (w ++ rest)).mpr rfl]
  cases w with
  | nil => exact absurd rfl hw
  | cons b w' =>
    have hb : pyIsSpace b = true := hws b (List.mem_cons_self b w')
    rw [List.cons_append]
    have hsw : startsWs (b :: (w' ++ rest)) = true := by simpa [startsWs] using hb
    show (if startsWs (b :: (w' ++ rest)) = true then
        List.dropWhile pyIsSpace (b :: (w' ++ rest)) else g ++ (b :: w' ++ rest)) = rest
    rw [if_pos hsw]
    rw [List.dropWhile_cons_of_pos hb]
    rw [List.dropWhile_append_of_pos (fun x hx => hws x (List.mem_cons_of_mem b hx))]
    cases rest with
    | nil => rfl
    | cons r rs =>
      have hr : pyIsSpace r = false := by simpa [startsWs] using hrest
      exact dropWhile_head_not hr

/-! ### Shape of every classifier result -/

/-- Every result of `classifyRemaining` is either fully degraded with the
working string as suffix, a binomial without trinomial, or a binomial with a
trinomial extending it by one lowercase word. -/
lemma classify_shapes (gpart : List Char) (remaining : List (List Char)) (cs : List Char) :
    classifyRemaining gpart remaining cs = (none, none, some (String.mk cs)) ∨
    (∃ bl u, classifyRemaining gpart remaining cs = (some (String.mk bl), none, u)) ∨
    (∃ bl nx u, classifyRemaining gpart remaining cs
        = (some (String.mk bl), some (String.mk (bl ++ ' ' :: nx)), u) ∧
      nx ≠ [] ∧ (∀ x ∈ nx, Char.isLower x = true)) := by
  cases remaining with
  | nil => exact Or.inl rfl
  | cons epithet rem1 =>
    simp only [classifyRemaining]
    split
    · exact Or.inl rfl
    · split
      · exact Or.inl rfl
      · split
        · split
          · exact Or.inr (Or.inl ⟨_, _, rfl⟩)
          · exact Or.inr (Or.inl ⟨_, _, rfl⟩)
        · rename_i next rest2
          split
          · rename_i hnx
            have hne : next ≠ [] := by
              intro h; subst h; simp at hnx
            have hlow : ∀ x ∈ next, Char.isLower x = true := by
              have h2 := (Bool.and_eq_true _ _).mp hnx
              exact fun x hx => List.all_eq_true.mp h2.2 x hx
            split
            · exact Or.inr (Or.inr ⟨_, next, _, rfl, hne, hlow⟩)
            · exact Or.inr (Or.inr ⟨_, next, _, rfl, hne, hlow⟩)
          · exact Or.inr (Or.inl ⟨_, _, rfl⟩)

/-- Complete case decomposition of a successful classifier run. -/
lemma clean_result_cases {species genus : Option String} {r : Result}
    (h : clean_species_name species genus = some r) :
    r = (none, none, none) ∨
    (∃ sv cs, species = some sv ∧ applyDoubled genus (pyStrip sv.toList) = some cs ∧
      pySplit cs ≠ [] ∧
      (r = (none, none, some (String.mk cs)) ∨
        ∃ gp rem, resolveGenus genus (pySplit cs) = some (gp, rem) ∧
          r = classifyRemaining gp rem cs)) := by
  cases species with
  | none =>
    left
    simpa [clean_species_name] using h.symm
  | some sv =>
    simp only [clean_species_name, cleanCore] at h
    by_cases hsv : sv = ""
    · rw [if_pos hsv] at h
      left
      exact (Option.some.inj h).symm
    · rw [if_neg hsv] at h
      cases had : applyDoubled genus (pyStrip sv.toList) with
      | none => rw [had] at h; exact absurd h (by simp)
      | some cs =>
        rw [had, Option.map_some', Option.some.injEq] at h
        cases hsp : pySplit cs with
        | nil =>
          rw [hsp] at h
          left
          rw [← h]
          rfl
        | cons p0 rest =>
          rw [hsp] at h
          right
          refine ⟨sv, cs, rfl, had, by rw [hsp]; exact fun hx => List.noConfusion hx, ?_⟩
          rw [hsp]
          simp only [cleanSplit] at h
          cases hrg : resolveGenus genus (p0 :: rest) with
          | none =>
            rw [hrg] at h
            left
            rw [← h]
            rfl
          | some pr =>
            rw [hrg] at h
            right
            exact ⟨pr.1, pr.2, by cases pr; rfl, by rw [← h]; cases pr; rfl⟩

/-- The classifier fails (Python would raise) only when a nonempty genus
argument does not stay inside the modelled regex fragment. -/
lemma clean_none_cases {species genus : Option String}
    (h : clean_species_name species genus = none) :
    ∃ sv gv, species = some sv ∧ sv ≠ "" ∧ genus = some gv ∧ gv ≠ "" ∧
      genusToks (pyStrip gv.toList) = none := by
  cases species with
  | none => simp [clean_species_name] at h
  | some sv =>
    simp only [clean_species_name, cleanCore] at h
    by_cases hsv : sv = ""
    · rw [if_pos hsv] at h; exact absurd h (by simp)
    · rw [if_neg hsv] at h
      cases had : applyDoubled genus (pyStrip sv.toList) with
      | some cs => rw [had] at h; simp at h
      | none =>
        cases genus with
        | none => simp [applyDoubled] at had
        | some gv =>
          by_cases hgv : gv = ""
          · rw [applyDoubled, if_pos hgv] at had; exact absurd had (by simp)
          · rw [applyDoubled, if_neg hgv] at had
            cases hts : genusToks (pyStrip gv.toList) with
            | some ts => rw [hts] at had; exact absurd had (by simp)
            | none => exact ⟨sv, gv, rfl, hsv, rfl, hgv, hts⟩

/-! ### String-level helpers -/

lemma mk_append_space (a b : List Char) :
    String.mk a ++ " " ++ String.mk b = String.mk (a ++ ' ' :: b) := by
  show String.mk ((a ++ [' ']) ++ b) = String.mk (a ++ ' ' :: b)
  rw [List.append_assoc]
  rfl

lemma mk_ne_empty {l : List Char} (h : l ≠ []) : String.mk l ≠ "" := by
  intro he
  apply h
  have h2 : (String.mk l).data = ("" : String).data := by rw [he]
  simpa using h2

lemma lower_ne_char {a : Char} (h : Char.isLower a = true) {c : Char}
    (hc : Char.isLower c = false) : (a == c) = false := by
  cases hab : a == c with
  | false => rfl
  | true =>
    have hac := beq_iff_eq.mp hab
    subst hac
    rw [h] at hc
    exact Bool.noConfusion hc

/-- A nonempty all-lowercase token other than "sp" passes all three
placeholder checks. -/
lemma placeholder_false_of_lower {c : List Char} (hcl : ∀ x ∈ c, Char.isLower x = true)
    (hsp2 : c ≠ ['s', 'p']) : isPlaceholder c = false := by
  cases c with
  | nil => rfl
  | cons a c1 =>
    cases c1 with
    | nil => rfl
    | cons b c2 =>
      cases c2 with
      | nil =>
        have ha := hcl a (by simp)
        have hb := hcl b (by simp)
        simp only [isPlaceholder, isSpExact, isSpSep, isAffCf,
          lower_ne_char ha (show Char.isLower 'S' = false by decide),
          lower_ne_char hb (show Char.isLower 'P' = false by decide), Bool.or_false]
        by_cases hsa : a = 's'
        · by_cases hsb : b = 'p'
          · exact absurd (by rw [hsa, hsb]) hsp2
          · simp [hsb]
        · simp [hsa]
      | cons d c3 =>
        have hd := hcl d (by simp)
        cases c3 with
        | nil =>
          simp [isPlaceholder, isSpExact, isSpSep, isAffCf,
            lower_ne_char hd (show Char.isLower '.' = false by decide),
            lower_ne_char hd (show Char.isLower '_' = false by decide)]
        | cons e c4 =>
          have he := hcl e (by simp)
          cases c4 with
          | nil =>
            simp [isPlaceholder, isSpExact, isSpSep, isAffCf,
              lower_ne_char hd (show Char.isLower '.' = false by decide),
              lower_ne_char hd (show Char.isLower '_' = false by decide),
              lower_ne_char he (show Char.isLower '.' = false by decide)]
          | cons f c5 =>
            simp [isPlaceholder, isSpExact, isSpSep, isAffCf,
              lower_ne_char hd (show Char.isLower '.' = false by decide),
              lower_ne_char hd (show Char.isLower '_' = false by decide)]

lemma triple_eq {α β γ : Type} {a1 a2 : α} {b1 b2 : β} {c1 c2 : γ}
    (h : (a1, b1, c1) = (a2, b2, c2)) : a1 = a2 ∧ b1 = b2 ∧ c1 = c2 := by
  injection h with h1 h2
  injection h2 with h2 h3
  exact ⟨h1, h2, h3⟩

/-! ## Claims -/

/-- C5: for every pair of inputs, if the returned trinomial is present then
the returned binomial is present and the trinomial equals the binomial
followed by a single space and the (nonempty, all-lowercase) subspecies
token; equivalently, whenever the binomial is absent the trinomial is
absent. -/
theorem trinomial_extends_binomial (species genus : Option String)
    (b t u : Option String) (h : clean_species_name species genus = some (b, t, u)) :
    (b = none → t = none) ∧
    (∀ tv, t = some tv → ∃ bv sub, b = some bv ∧ sub ≠ "" ∧ tv = bv ++ " " ++ sub) := by
  rcases clean_result_cases h with hr | ⟨sv, cs, -, -, -, hr | ⟨gp, rem, -, hr⟩⟩
  · obtain ⟨rfl, rfl, rfl⟩ := triple_eq hr
    exact ⟨fun _ => rfl, fun tv htv => Option.noConfusion htv⟩
  · obtain ⟨rfl, rfl, rfl⟩ := triple_eq hr
    exact ⟨fun _ => rfl, fun tv htv => Option.noConfusion htv⟩
  · rcases classify_shapes gp rem cs with hs1 | ⟨bl, u1, hs1⟩ | ⟨bl, nx, u1, hs1, hne, -⟩ <;>
      rw [hs1] at hr <;>
      obtain ⟨rfl, rfl, rfl⟩ := triple_eq hr
    · exact ⟨fun _ => rfl, fun tv htv => Option.noConfusion htv⟩
    · exact ⟨fun hb => Option.noConfusion hb, fun tv htv => Option.noConfusion htv⟩
    · refine ⟨fun hb => Option.noConfusion hb, fun tv htv => ?_⟩
      refine ⟨String.mk bl, String.mk nx, rfl, mk_ne_empty hne, ?_⟩
      rw [mk_append_space]
      exact (Option.some.inj htv).symm ▸ rfl

/-- C5 witness: the invariant instantiated at a concrete trinomial input. -/
theorem trinomial_extends_binomial_witness :
    ((some "Onthophagus incensus" : Option String) = none →
      (some "Onthophagus incensus auratus" : Option String) = none) ∧
    (∀ tv, (some "Onthophagus incensus auratus" : Option String) = some tv →
      ∃ bv sub, (some "Onthophagus incensus" : Option String) = some bv ∧ sub ≠ "" ∧
        tv = bv ++ " " ++ sub) :=
  trinomial_extends_binomial (some "Onthophagus incensus auratus") none
    (some "Onthophagus incensus") (some "Onthophagus incensus auratus") none (by decide)

/-- C2 counterexample, two independent failures of the claim.  First,
classifying "incensus" with genus "onthophagus" yields the binomial
"onthophagus incensus" with trinomial and suffix absent and no
doubled-genus strip, yet re-running the classifier on that binomial with no
genus degrades it (the binomial becomes absent).  Second, even an
uppercase-initial genus part does not suffice: "Onthophagus sp-x auratus"
produces the suffix-free binomial "Onthophagus sp" (the canonical lowercase
run of the epithet "sp-x" is "sp"), and re-running on "Onthophagus sp" hits
the `^sp\.?$` placeholder check and degrades. -/
theorem rerun_changes_lowercase_binomial :
    (clean_species_name (some "incensus") (some "onthophagus")
        = some (some "onthophagus incensus", none, none) ∧
      clean_species_name (some "onthophagus incensus") none
        = some (none, none, some "onthophagus incensus") ∧
      clean_species_name (some "onthophagus incensus") none
        ≠ some (some "onthophagus incensus", none, none)) ∧
    (clean_species_name (some "Onthophagus sp-x auratus") none
        = some (some "Onthophagus sp", some "Onthophagus sp auratus", none) ∧
      clean_species_name (some "Onthophagus sp") none
        = some (none, none, some "Onthophagus sp") ∧
      clean_species_name (some "Onthophagus sp") none
        ≠ some (some "Onthophagus sp", none, none)) :=
  ⟨by decide, by decide⟩

/-- C2 amended: re-running the classifier on a produced binomial returns it
unchanged with trinomial and suffix absent, provided the binomial's genus
part is a nonempty whitespace-free token starting with an uppercase letter
and its epithet part is not the bare word "sp" (an "sp" epithet can arise
from a glued tail, e.g. "sp-x", whose canonical lowercase run is "sp";
re-running then hits the placeholder check). -/
theorem rerun_binomial_unchanged (G c : List Char) (hG : G ≠ [])
    (hGw : ∀ x ∈ G, pyIsSpace x = false) (hGu : tokenStartsUpper G = true)
    (hc : c ≠ []) (hcl : ∀ x ∈ c, Char.isLower x = true) (hsp2 : c ≠ ['s', 'p']) :
    clean_species_name (some (String.mk (G ++ ' ' :: c))) none
      = some (some (String.mk (G ++ ' ' :: c)), none, none) := by
  have hcw : ∀ x ∈ c, pyIsSpace x = false := fun x hx => isLower_not_ws (hcl x hx)
  have hstrip : pyStrip (String.mk (G ++ ' ' :: c)).toList = G ++ ' ' :: c := by
    show pyStrip (G ++ ' ' :: c) = G ++ ' ' :: c
    obtain ⟨g0, G2, rfl⟩ : ∃ g0 G2, G = g0 :: G2 := by
      cases G with
      | nil => exact absurd rfl hG
      | cons x y => exact ⟨x, y, rfl⟩
    rcases List.eq_nil_or_concat c with rfl | ⟨c2, cl, rfl⟩
    · exact absurd rfl hc
    · have hclm : cl ∈ c2.concat cl := by simp
      simp only [List.concat_eq_append] at hcw ⊢
      have hsh : (g0 :: G2) ++ ' ' :: (c2 ++ [cl]) = g0 :: ((G2 ++ ' ' :: c2) ++ [cl]) := by
        simp
      rw [hsh]
      exact pyStrip_of_ends (hGw g0 (by simp)) (hcw cl (by simp))
  have hcs : applyDoubled none (pyStrip (String.mk (G ++ ' ' :: c)).toList)
      = some (G ++ ' ' :: c) := by
    simp only [applyDoubled]
    rw [hstrip]
  have hrg : resolveGenus none (pySplit (G ++ ' ' :: c)) = some (G, [c]) := by
    rw [pySplit_two hGw hcw hG hc]
    simp [resolveGenus, hGu]
  rw [clean_eq_classify hcs hrg]
  have hplf : isPlaceholder c = false := placeholder_false_of_lower hcl hsp2
  have hcan : canonOf c = c := takeWhile_all hcl
  have htail : tailOf c = [] := dropWhile_all hcl
  simp [classifyRemaining, binomialOf, hplf, hcan, hc, htail]

/-- C2 witness: a concrete binomial re-run is the identity. -/
theorem rerun_binomial_unchanged_witness :
    clean_species_name (some (String.mk ("Onthophagus".toList ++ ' ' :: "incensus".toList))) none
      = some (some (String.mk ("Onthophagus".toList ++ ' ' :: "incensus".toList)), none, none) :=
  rerun_binomial_unchanged "Onthophagus".toList "incensus".toList (by decide) (by decide)
    (by decide) (by decide) (by decide) (by decide)

/-- C8 counterexample: a whitespace-only species with genus "(" does not
return all-absent: the interpolated pattern `^(\s+(\s+` does not compile
(Python raises `re.error`), which the model marks as `none`. -/
theorem whitespace_species_metachar_genus :
    clean_species_name (some " ") (some "(") = none ∧
    clean_species_name (some " ") (some "(") ≠ some (none, none, none) := by decide

/-- C8 amended: a missing or empty species returns all-absent for every
genus argument, and a species that trims to nothing also returns all-absent
provided the genus stays inside the modelled regex fragment (absent, empty,
or free of regex metacharacters). -/
theorem empty_inputs_all_absent :
    (∀ g : Option String, clean_species_name none g = some (none, none, none)) ∧
    (∀ g : Option String, clean_species_name (some "") g = some (none, none, none)) ∧
    (∀ (s : String) (g : Option String), pyStrip s.toList = [] → genusCompiles g = true →
      clean_species_name (some s) g = some (none, none, none)) := by
  refine ⟨fun g => rfl, fun g => rfl, ?_⟩
  intro s g hstrip hcomp
  by_cases hsv : s = ""
  · subst hsv; rfl
  · simp only [clean_species_name, cleanCore, if_neg hsv, hstrip]
    have hap : applyDoubled g [] = some [] := by
      cases g with
      | none => rfl
      | some gv =>
        by_cases hgv : gv = ""
        · simp [applyDoubled, hgv]
        · rw [applyDoubled, if_neg hgv]
          simp only [genusCompiles] at hcomp
          rw [decide_eq_false hgv, Bool.false_or] at hcomp
          cases hts : genusToks (pyStrip gv.toList) with
          | none => rw [hts] at hcomp; exact absurd hcomp (by simp)
          | some ts =>
            simp [matchDoubled_nil]
    rw [hap, Option.map_some']
    rfl

/-- C8 witness: the all-absent cases at concrete inputs, including a
metacharacter genus on the safe paths and a whitespace-only species. -/
theorem empty_inputs_all_absent_witness :
    clean_species_name none (some "(") = some (none, none, none) ∧
    clean_species_name (some "") (some "(") = some (none, none, none) ∧
    clean_species_name (some "  ") none = some (none, none, none) :=
  ⟨empty_inputs_all_absent.1 (some "("), empty_inputs_all_absent.2.1 (some "("),
    empty_inputs_all_absent.2.2 "  " none (by decide) (by decide)⟩

/-- Once a valid epithet is found, every branch returns the binomial built
from the resolved genus part and the canonical epithet. -/
lemma classify_binomial {gp ep : List Char} {rem1 : List (List Char)} {cs : List Char}
    (hpl : isPlaceholder ep = false) (hcn : canonOf ep ≠ []) :
    ∃ t u, classifyRemaining gp (ep :: rem1) cs
      = (some (String.mk (binomialOf gp ep)), t, u) := by
  simp only [classifyRemaining, hpl, Bool.false_eq_true, if_false]
  rw [if_neg hcn]
  split
  · split
    · exact ⟨_, _, rfl⟩
    · exact ⟨_, _, rfl⟩
  · split
    · split
      · exact ⟨_, _, rfl⟩
      · exact ⟨_, _, rfl⟩
    · exact ⟨_, _, rfl⟩

/-- C10: the returned binomial need not start with an uppercase letter: when
the first token does not start uppercase and a (truthy) genus argument is
supplied, the trimmed genus text is used verbatim as the genus part of the
binomial; in particular a lowercase genus argument yields an all-lowercase
binomial. -/
theorem genus_argument_verbatim :
    (∀ (s gv : String) (cs p0 : List Char) (rest : List (List Char)),
      applyDoubled (some gv) (pyStrip s.toList) = some cs →
      pySplit cs = p0 :: rest →
      tokenStartsUpper p0 = false →
      gv ≠ "" →
      isPlaceholder p0 = false →
      canonOf p0 ≠ [] →
      ∃ t u, clean_species_name (some s) (some gv)
        = some (some (String.mk (pyStrip gv.toList ++ ' ' :: canonOf p0)), t, u)) ∧
    clean_species_name (some "incensus") (some "onthophagus")
      = some (some "onthophagus incensus", none, none) := by
  refine ⟨?_, by decide⟩
  intro s gv cs p0 rest h1 hsp hup hgv hpl hcn
  have hrg : resolveGenus (some gv) (pySplit cs) = some (pyStrip gv.toList, p0 :: rest) := by
    rw [hsp]
    simp [resolveGenus, hup, hgv]
  obtain ⟨t, u, hce⟩ := @classify_binomial (pyStrip gv.toList) p0 rest cs hpl hcn
  exact ⟨t, u, by rw [clean_eq_classify h1 hrg, hce]; rfl⟩

/-- C10 witness: the lowercase-genus instance. -/
theorem genus_argument_verbatim_witness :
    ∃ t u, clean_species_name (some "incensus") (some "onthophagus")
      = some (some (String.mk (pyStrip "onthophagus".toList
          ++ ' ' :: canonOf "incensus".toList)), t, u) :=
  genus_argument_verbatim.1 "incensus" "onthophagus" "incensus".toList "incensus".toList []
    (by decide) (by decide) (by decide) (by decide) (by decide) (by decide)

/-- The single-space join of a list headed by a nonempty token is nonempty. -/
lemma joinSp_cons_ne_nil {t : List Char} {ts : List (List Char)} (h : t ≠ []) :
    joinSp (t :: ts) ≠ [] := by
  cases ts with
  | nil => simpa [joinSp] using h
  | cons r rs => simp [joinSp]

/-- C7: once a binomial is formed and more than one remaining token exists,
a pure-lowercase second token becomes the subspecies of a trinomial with the
tokens after it joined as suffix (absent when there are none); any other
second token yields no trinomial and the join of all tokens after the
epithet as suffix, with a nonempty glued epithet tail prepended. -/
theorem after_epithet_branching (s : String) (g : Option String)
    (cs gp ep next : List Char) (rest2 : List (List Char))
    (h1 : applyDoubled g (pyStrip s.toList) = some cs)
    (hrg : resolveGenus g (pySplit cs) = some (gp, ep :: next :: rest2))
    (hpl : isPlaceholder ep = false)
    (hcn : canonOf ep ≠ []) :
    (next.all Char.isLower = true →
      clean_species_name (some s) g
        = some (some (String.mk (binomialOf gp ep)),
            some (String.mk (binomialOf gp ep ++ ' ' :: next)),
            if rest2 = [] then none else some (String.mk (joinSp rest2)))) ∧
    (next.all Char.isLower = false →
      clean_species_name (some s) g
        = some (some (String.mk (binomialOf gp ep)), none,
            some (String.mk (tailSuffix ep (next :: rest2))))) := by
  have hnm : next ∈ pySplit cs :=
    resolveGenus_mem hrg next (by simp)
  have hnne : next ≠ [] := pySplit_token_ne_nil hnm
  have hnes : next.isEmpty = false := by
    cases next with
    | nil => exact absurd rfl hnne
    | cons a b => rfl
  constructor
  · intro hlo
    have hcond : (!next.isEmpty && next.all Char.isLower) = true := by
      rw [hnes, hlo]
      rfl
    rw [clean_eq_classify h1 hrg]
    simp only [classifyRemaining, hpl, Bool.false_eq_true, if_false]
    rw [if_neg hcn, if_pos hcond]
    cases rest2 with
    | nil => rfl
    | cons r rs => rfl
  · intro hlo
    have hcond : (!next.isEmpty && next.all Char.isLower) = false := by
      rw [hlo, Bool.and_false]
    rw [clean_eq_classify h1 hrg]
    simp only [classifyRemaining, hpl, Bool.false_eq_true, if_false]
    rw [if_neg hcn, if_neg (by simp [hcond])]
    have hts : tailSuffix ep (next :: rest2) ≠ [] := by
      unfold tailSuffix
      by_cases htl : tailOf ep = []
      · rw [if_pos htl]
        exact joinSp_cons_ne_nil hnne
      · rw [if_neg htl]
        intro hx
        simp at hx
    rw [if_neg hts]

/-- C7 witness: both pieces applied at concrete inputs exercising the
subspecies branch and the suffix branch. -/
theorem after_epithet_branching_witness :
    (clean_species_name (some "Onthophagus incensus auratus Z1") none
      = some (some (String.mk (binomialOf "Onthophagus".toList "incensus".toList)),
          some (String.mk (binomialOf "Onthophagus".toList "incensus".toList
            ++ ' ' :: "auratus".toList)),
          if ["Z1".toList] = ([] : List (List Char)) then none
          else some (String.mk (joinSp ["Z1".toList])))) ∧
    (clean_species_name (some "Onthophagus incensus B7 x") none
      = some (some (String.mk (binomialOf "Onthophagus".toList "incensus".toList)), none,
          some (String.mk (tailSuffix "incensus".toList ["B7".toList, "x".toList])))) :=
  ⟨(after_epithet_branching "Onthophagus incensus auratus Z1" none
      "Onthophagus incensus auratus Z1".toList "Onthophagus".toList "incensus".toList
      "auratus".toList ["Z1".toList] (by decide) (by decide) (by decide) (by decide)).1
      (by decide),
   (after_epithet_branching "Onthophagus incensus B7 x" none
      "Onthophagus incensus B7 x".toList "Onthophagus".toList "incensus".toList
      "B7".toList ["x".toList] (by decide) (by decide) (by decide) (by decide)).2
      (by decide)⟩

/-- C9: when the second remaining token is recognized as a subspecies and
the epithet carries a nonempty glued tail, the tail is silently discarded:
the returned triple is built only from the genus part, the canonical
epithet, the subspecies token and the tokens after it, so the tail appears
in none of the outputs. -/
theorem epithet_tail_discarded (s : String) (g : Option String)
    (cs gp ep next : List Char) (rest2 : List (List Char))
    (h1 : applyDoubled g (pyStrip s.toList) = some cs)
    (hrg : resolveGenus g (pySplit cs) = some (gp, ep :: next :: rest2))
    (hpl : isPlaceholder ep = false)
    (hcn : canonOf ep ≠ [])
    (_htl : tailOf ep ≠ [])
    (hnx : (!next.isEmpty && next.all Char.isLower) = true) :
    clean_species_name (some s) g
      = some (some (String.mk (gp ++ ' ' :: canonOf ep)),
          some (String.mk ((gp ++ ' ' :: canonOf ep) ++ ' ' :: next)),
          if rest2 = [] then none else some (String.mk (joinSp rest2))) := by
  rw [clean_eq_classify h1 hrg]
  simp only [classifyRemaining, hpl, Bool.false_eq_true, if_false]
  rw [if_neg hcn, if_pos hnx]
  cases rest2 with
  | nil => rfl
  | cons r rs => rfl

/-- C9 witness: "Onthophagus incensusX auratus" loses the glued "X". -/
theorem epithet_tail_discarded_witness :
    clean_species_name (some "Onthophagus incensusX auratus") none
      = some (some (String.mk ("Onthophagus".toList ++ ' ' :: canonOf "incensusX".toList)),
          some (String.mk (("Onthophagus".toList ++ ' ' :: canonOf "incensusX".toList)
            ++ ' ' :: "auratus".toList)),
          if ([] : List (List Char)) = [] then none
          else some (String.mk (joinSp []))) :=
  epithet_tail_discarded "Onthophagus incensusX auratus" none
    "Onthophagus incensusX auratus".toList "Onthophagus".toList "incensusX".toList
    "auratus".toList [] (by decide) (by decide) (by decide) (by decide) (by decide) (by decide)

/-- C6 counterexample: with a doubled genus in front of a placeholder
epithet the returned suffix is the genus-stripped working string, not the
original trimmed input. -/
theorem placeholder_suffix_not_original :
    clean_species_name (some "Onthophagus Onthophagus cf. bla") (some "Onthophagus")
      = some (none, none, some "Onthophagus cf. bla") ∧
    (some "Onthophagus cf. bla" : Option String)
      ≠ some (String.mk (pyStrip "Onthophagus Onthophagus cf. bla".toList)) := by decide

/-- C6 amended: a placeholder epithet ("sp", "sp.", "sp." or "sp_"-led,
"aff.", "cf.", case-insensitively) makes the result (absent, absent,
suffix = the trimmed working string after doubled-genus removal), which is
the original trimmed input whenever the removal did not fire; in particular
both "Onthophagus sp." and "Onthophagus sp._13YB" are returned whole as
suffix. -/
theorem placeholder_returns_working_string :
    (∀ (s : String) (g : Option String) (cs gp ep : List Char) (rest : List (List Char)),
      applyDoubled g (pyStrip s.toList) = some cs →
      resolveGenus g (pySplit cs) = some (gp, ep :: rest) →
      isPlaceholder ep = true →
      clean_species_name (some s) g = some (none, none, some (String.mk cs))) ∧
    clean_species_name (some "Onthophagus sp.") none
      = some (none, none, some "Onthophagus sp.") ∧
    clean_species_name (some "Onthophagus sp._13YB") none
      = some (none, none, some "Onthophagus sp._13YB") := by
  refine ⟨?_, by decide, by decide⟩
  intro s g cs gp ep rest h1 hrg hpl
  rw [clean_eq_classify h1 hrg]
  simp only [classifyRemaining]
  rw [if_pos hpl]

/-- C6 witness: the placeholder branch at a concrete "cf." input. -/
theorem placeholder_returns_working_string_witness :
    clean_species_name (some "Onthophagus cf. x") none
      = some (none, none, some (String.mk "Onthophagus cf. x".toList)) :=
  placeholder_returns_working_string.1 "Onthophagus cf. x" none
    "Onthophagus cf. x".toList "Onthophagus".toList "cf.".toList ["x".toList]
    (by decide) (by decide) (by decide)

/-- C3 counterexample: when the doubled-genus removal fires and the epithet
is unparseable, the suffix is the stripped working string — an altered
string, not the fully trimmed original input. -/
theorem no_epithet_suffix_altered :
    clean_species_name (some "Onthophagus Onthophagus 123") (some "Onthophagus")
      = some (none, none, some "Onthophagus 123") ∧
    (some "Onthophagus 123" : Option String)
      ≠ some (String.mk (pyStrip "Onthophagus Onthophagus 123".toList)) := by decide

/-- C3 amended: for every nonempty input in which no lowercase-leading
epithet can be isolated (no genus resolution, genus-only token list,
placeholder epithet, or an epithet with no leading lowercase run), the
binomial is absent and the suffix is exactly the trimmed working string
after doubled-genus removal — the fully trimmed original input whenever the
removal did not fire — never any other partial string. -/
theorem no_epithet_working_suffix (s : String) (g : Option String) (cs : List Char)
    (h1 : applyDoubled g (pyStrip s.toList) = some cs)
    (hne : pySplit cs ≠ [])
    (hcase : resolveGenus g (pySplit cs) = none ∨
      ∃ gp rem, resolveGenus g (pySplit cs) = some (gp, rem) ∧
        (rem = [] ∨ ∃ ep rest, rem = ep :: rest ∧
          (isPlaceholder ep = true ∨ canonOf ep = []))) :
    clean_species_name (some s) g = some (none, none, some (String.mk cs)) := by
  obtain ⟨p0, rest0, hsp⟩ : ∃ p0 r, pySplit cs = p0 :: r := by
    cases hx : pySplit cs with
    | nil => exact absurd hx hne
    | cons a b => exact ⟨a, b, rfl⟩
  rcases hcase with hnone | ⟨gp, rem, hrg, hrem⟩
  · rw [hsp] at hnone
    exact clean_eq_noResolve h1 hsp hnone
  · rw [clean_eq_classify h1 hrg]
    rcases hrem with rfl | ⟨ep, rest, rfl, hpc⟩
    · rfl
    · by_cases hpl : isPlaceholder ep = true
      · simp only [classifyRemaining]
        rw [if_pos hpl]
      · rcases hpc with hpl2 | hcn
        · exact absurd hpl2 hpl
        · simp only [classifyRemaining]
          rw [if_neg hpl, if_pos hcn]

/-- C3 witness: a single capitalized token (genus only, no epithet) is
returned whole as suffix. -/
theorem no_epithet_working_suffix_witness :
    clean_species_name (some "Qwerty") none
      = some (none, none, some (String.mk "Qwerty".toList)) :=
  no_epithet_working_suffix "Qwerty" none "Qwerty".toList (by decide) (by decide)
    (Or.inr ⟨"Qwerty".toList, [], by decide, Or.inl rfl⟩)

/-- C1 counterexample: classification is not total-with-original-suffix as
claimed: on a doubled-genus input whose epithet is a placeholder, the
returned suffix is the genus-stripped string, not the original. -/
theorem unparseable_suffix_not_original :
    clean_species_name (some "Onthophagus Onthophagus sp.") (some "Onthophagus")
      = some (none, none, some "Onthophagus sp.") ∧
    (some "Onthophagus sp." : Option String)
      ≠ some (String.mk (pyStrip "Onthophagus Onthophagus sp.".toList)) := by decide

/-- C1 amended: the classifier is a pure function (hence deterministic);
whenever it returns with an absent binomial the trinomial is absent too and
the suffix is either absent (empty-ish inputs) or exactly the trimmed
working string after doubled-genus removal; and the only way it fails to
return normally is a nonempty genus argument whose unescaped interpolation
leaves the modelled regex fragment (for example genus "(" makes `re.match`
raise `re.error`). -/
theorem unparseable_degrades_deterministically :
    (∀ (s : String) (g : Option String) (b t u : Option String),
      clean_species_name (some s) g = some (b, t, u) → b = none →
      t = none ∧ (u = none ∨ ∃ cs, applyDoubled g (pyStrip s.toList) = some cs ∧
        u = some (String.mk cs))) ∧
    (∀ (s gv : String), clean_species_name (some s) (some gv) = none →
      gv ≠ "" ∧ genusToks (pyStrip gv.toList) = none) := by
  constructor
  · intro s g b t u h hb
    subst hb
    rcases clean_result_cases h with hr | ⟨sv, cs, hsv, had, -, hr | ⟨gp, rem, -, hr⟩⟩
    · obtain ⟨-, rfl, rfl⟩ := triple_eq hr
      exact ⟨rfl, Or.inl rfl⟩
    · obtain ⟨rfl⟩ : sv = s := by injection hsv with hx; exact hx.symm
      obtain ⟨-, rfl, rfl⟩ := triple_eq hr
      exact ⟨rfl, Or.inr ⟨cs, had, rfl⟩⟩
    · obtain ⟨rfl⟩ : sv = s := by injection hsv with hx; exact hx.symm
      rcases classify_shapes gp rem cs with hs1 | ⟨bl, u1, hs1⟩ | ⟨bl, nx, u1, hs1, -, -⟩ <;>
        rw [hs1] at hr
      · obtain ⟨-, rfl, rfl⟩ := triple_eq hr
        exact ⟨rfl, Or.inr ⟨cs, had, rfl⟩⟩
      · obtain ⟨hb2, -, -⟩ := triple_eq hr
        exact Option.noConfusion hb2
      · obtain ⟨hb2, -, -⟩ := triple_eq hr
        exact Option.noConfusion hb2
  · intro s gv h
    obtain ⟨sv, gv2, -, -, hg, hgv, hts⟩ := clean_none_cases h
    obtain ⟨rfl⟩ : gv2 = gv := by injection hg with hx; exact hx.symm
    exact ⟨hgv, hts⟩

/-- C1 witness: the degradation at a digits-only species, and the failure
characterization at genus "(". -/
theorem unparseable_degrades_witness :
    ((none : Option String) = none ∧ ((some "123" : Option String) = none ∨
      ∃ cs, applyDoubled none (pyStrip ("123" : String).toList) = some cs ∧
        (some "123" : Option String) = some (String.mk cs))) ∧
    (("(" : String) ≠ "" ∧ genusToks (pyStrip ("(" : String).toList) = none) :=
  ⟨unparseable_degrades_deterministically.1 "123" none none none (some "123")
      (by decide) rfl,
    unparseable_degrades_deterministically.2 "Ab" "(" (by decide)⟩

/-- C4 counterexample: the genus text is interpolated into the doubled-genus
regex unescaped, so a genus containing "." fires the removal on a species
that does not even begin with the genus text once: with genus "O." the
species "Oa Ob c" loses its first token. -/
theorem doubled_genus_wildcard :
    clean_species_name (some "Oa Ob c") (some "O.") = some (some "Ob c", none, none) ∧
    ¬ ∃ rest, "Oa Ob c".toList = "O.".toList ++ rest := by
  refine ⟨by decide, ?_⟩
  rintro ⟨rest, heq⟩
  rw [show "O.".toList = ['O', '.'] from rfl,
    show "Oa Ob c".toList = ['O', 'a', ' ', 'O', 'b', ' ', 'c'] from rfl] at heq
  injection heq with h1 h2
  injection h2 with h3 h4
  exact absurd h3 (by decide)

/-- C4 amended: for a genus whose trimmed text contains no regex
metacharacter (including no "."), the doubled-genus step fires exactly when
the species string begins with the genus text, one or more whitespace
characters, the genus text again, and further whitespace — so never on a
single genus prefix — and when it fires it strips exactly one leading
occurrence of the genus plus the whitespace run after it; a genus containing
metacharacters is interpolated unescaped and behaves as a regex instead. -/
theorem doubled_genus_exact_match (gv : String) (cs : List Char)
    (hplain : ∀ c ∈ pyStrip gv.toList, c ∉ regexSpecials ∧ c ≠ '.')
    (hgv : gv ≠ "") :
    applyDoubled (some gv) cs
      = some (if matchDoubled ((pyStrip gv.toList).map GTok.lit) cs
          then stripGenusOnce ((pyStrip gv.toList).map GTok.lit) cs else cs) ∧
    (matchDoubled ((pyStrip gv.toList).map GTok.lit) cs = true ↔
      ∃ w1 w2 rest, w1 ≠ [] ∧ w2 ≠ [] ∧ (∀ x ∈ w1, pyIsSpace x = true) ∧
        (∀ x ∈ w2, pyIsSpace x = true) ∧
        cs = pyStrip gv.toList ++ (w1 ++ (pyStrip gv.toList ++ (w2 ++ rest)))) ∧
    (∀ w rest, cs = pyStrip gv.toList ++ (w ++ rest) → w ≠ [] →
      (∀ x ∈ w, pyIsSpace x = true) → startsWs rest = false →
      stripGenusOnce ((pyStrip gv.toList).map GTok.lit) cs = rest) := by
  refine ⟨?_, matchDoubled_lits_iff _ cs, ?_⟩
  · simp only [applyDoubled]
    rw [if_neg hgv, genusToks_plain hplain]
  · intro w rest heq hw hws hsw
    rw [heq]
    exact stripGenusOnce_lits hw hws hsw

/-- C4 witness: the doubled-genus step at a genuine doubled input. -/
theorem doubled_genus_exact_match_witness :
    applyDoubled (some "Onthophagus") "Onthophagus Onthophagus incensus".toList
      = some (if matchDoubled ((pyStrip ("Onthophagus" : String).toList).map GTok.lit)
            "Onthophagus Onthophagus incensus".toList
          then stripGenusOnce ((pyStrip ("Onthophagus" : String).toList).map GTok.lit)
            "Onthophagus Onthophagus incensus".toList
          else "Onthophagus Onthophagus incensus".toList) :=
  (doubled_genus_exact_match "Onthophagus" "Onthophagus Onthophagus incensus".toList
    (by decide) (by decide)).1

end CleanSpecies
